import Mathlib

/-!
Verification development for the `shimmy` C++ bridge (src/include/shim.h,
src/src/shim.cc) over the ryml tree library.

The shim's own code (which entry points call `init_ryml_once`, the body of
`init_ryml_once`, the `WriterRust::_do_write` overloads, `emit_to_rwriter`)
is embedded directly from the source.  The ryml operations the shim wraps
(`c4::yml::Tree::move`, the `Tree` copy constructor, the emitter internals)
are not part of this repository's sources; those are modelled from the
specification (spec.md sections 3, 4.1, 4.2) as noted on each definition.
-/

namespace Shimmy

/-- Node type tag, from spec section 3: document-root, scalar value,
sequence, mapping, and keyed variants. -/
inductive NodeType where
  | notype
  | doc
  | vval
  | seq
  | mmap
  | keyval
  | keyseq
  | keymap
  deriving DecidableEq, Repr

/-- A byte range into a tree's arena (spec section 3: key/value text is
stored as arena-owned byte ranges). -/
structure StrRange where
  off : Nat
  rlen : Nat
  deriving DecidableEq, Repr

/-- The scalar payload of a node: its type tag plus optional key and value
text, both as arena ranges. -/
structure Payload where
  ntype : NodeType
  key : Option StrRange
  sval : Option StrRange
  deriving DecidableEq, Repr

/-- A tree node: a stable integer id, a payload, and an ordered list of
child subtrees.  Models the parent/first-child/last-child/sibling link
structure of spec section 3 by its ordered-children reading. -/
inductive RNode where
  | mk (nid : Nat) (p : Payload) (children : List RNode)
  deriving Repr

/-- Structured error kinds of the bridge (spec section 7). -/
inductive RErr where
  | structuralViolation
  | bufferOverflow (required : Nat) (available : Nat)
  | parseError
  | runtimeError (msg : String)
  deriving DecidableEq, Repr

/-- A tree: the root node together with the byte arena owning all scalar
text referenced by the nodes (spec section 3). -/
structure Tree where
  root : RNode
  arena : List Char
  deriving Repr

def RNode.nid : RNode → Nat
  | .mk i _ _ => i

def RNode.payload : RNode → Payload
  | .mk _ p _ => p

def RNode.children : RNode → List RNode
  | .mk _ _ cs => cs

mutual

/-- All node ids occurring in a subtree, in preorder. -/
def RNode.ids : RNode → List Nat
  | .mk i _ cs => i :: RNode.idsF cs

def RNode.idsF : List RNode → List Nat
  | [] => []
  | c :: cs => c.ids ++ RNode.idsF cs

end

mutual

/-- Find the subtree rooted at the node with id `n` (first occurrence in
preorder). -/
def RNode.find (n : Nat) : RNode → Option RNode
  | .mk i p cs => if i = n then some (.mk i p cs) else RNode.findF n cs

def RNode.findF (n : Nat) : List RNode → Option RNode
  | [] => none
  | c :: cs =>
    match RNode.find n c with
    | some r => some r
    | none => RNode.findF n cs

end

mutual

/-- Id of the parent of the node with id `n` (none for the root or for an
absent id). -/
def parentOfN (n : Nat) : RNode → Option Nat
  | .mk i _ cs => parentOfF n i cs

def parentOfF (n pid : Nat) : List RNode → Option Nat
  | [] => none
  | c :: cs =>
    if c.nid = n then some pid
    else
      match parentOfN n c with
      | some q => some q
      | none => parentOfF n pid cs

end

mutual

/-- Id of the next sibling of the node with id `a`, if any. -/
def nextSibN (a : Nat) : RNode → Option Nat
  | .mk _ _ cs => nextSibF a cs

def nextSibF (a : Nat) : List RNode → Option Nat
  | [] => none
  | c :: cs =>
    if c.nid = a then (cs.head?).map RNode.nid
    else
      match nextSibN a c with
      | some q => some q
      | none => nextSibF a cs

end

mutual

/-- Remove the subtree whose root has id `n` (detach step of the relocation
operations, spec section 4.1).  The tree's own root is never removed. -/
def removeN (n : Nat) : RNode → RNode
  | .mk i p cs => .mk i p (removeF n cs)

def removeF (n : Nat) : List RNode → List RNode
  | [] => []
  | c :: cs => if c.nid = n then cs else removeN n c :: removeF n cs

end

mutual

/-- Insert `sub` as a sibling immediately following the node with id `a`
(reinsert step of the relocation operations, spec section 4.1).  Returns
none when no node with id `a` exists. -/
def insA (a : Nat) (sub : RNode) : RNode → Option RNode
  | .mk i p cs => (insAF a sub cs).map (fun cs2 => .mk i p cs2)

def insAF (a : Nat) (sub : RNode) : List RNode → Option (List RNode)
  | [] => none
  | c :: cs =>
    if c.nid = a then some (c :: sub :: cs)
    else
      match insA a sub c with
      | some c2 => some (c2 :: cs)
      | none => (insAF a sub cs).map (fun cs2 => c :: cs2)

end

mutual

/-- Insert `sub` as the new first child of the node with id `pid`
(the "no predecessor" reinsert of spec section 4.1).  Returns none when no
node with id `pid` exists. -/
def insFC (pid : Nat) (sub : RNode) : RNode → Option RNode
  | .mk i p cs =>
    if i = pid then some (.mk i p (sub :: cs))
    else (insFCF pid sub cs).map (fun cs2 => .mk i p cs2)

def insFCF (pid : Nat) (sub : RNode) : List RNode → Option (List RNode)
  | [] => none
  | c :: cs =>
    match insFC pid sub c with
    | some c2 => some (c2 :: cs)
    | none => (insFCF pid sub cs).map (fun cs2 => c :: cs2)

end

/-- Modelled from the spec (section 4.1, open question in section 9): the
accepted-child policy of a node type; container kinds admit children,
scalar leaves do not.  The concrete ryml policy is not under src/. -/
def canHaveChildren : NodeType → Bool
  | .doc | .seq | .mmap | .keyseq | .keymap => true
  | _ => false

/-- Modelled from the spec (section 4.1, `move_within`): ryml's
`c4::yml::Tree::move(node, after)` is not under src/; the shim's
`move_node` only forwards to it.  Detaches `node` and reinserts it as the
sibling immediately following `after` under `after`'s parent, or as the
new first child of `node`'s current parent when `after` denotes no
predecessor.  Root relocation, absent nodes, and cycle-creating requests
fail with `structuralViolation`, leaving the tree unchanged. -/
def move_within (t : Tree) (node : Nat) (after : Option Nat) : Tree × Option RErr :=
  if t.root.nid = node then (t, some .structuralViolation)
  else
    match parentOfN node t.root, t.root.find node with
    | some p, some sub =>
      match after with
      | none =>
        match insFC p sub (removeN node t.root) with
        | some r2 => ({ t with root := r2 }, none)
        | none => (t, some .structuralViolation)
      | some a =>
        if a ∈ sub.ids then (t, some .structuralViolation)
        else
          match parentOfN a t.root with
          | some _ =>
            match insA a sub (removeN node t.root) with
            | some r2 => ({ t with root := r2 }, none)
            | none => (t, some .structuralViolation)
          | none => (t, some .structuralViolation)
    | _, _ => (t, some .structuralViolation)

/-- Modelled from the spec (section 4.1, `move_to_new_parent`): ryml's
`c4::yml::Tree::move(node, new_parent, after)` is not under src/.
Detaches `node` and reinserts it under `new_parent`: as first child when
`after` denotes no predecessor, else immediately following `after`.
Fails with `structuralViolation` (tree unchanged) when `node` is the
root, absent, when `new_parent` is `node` itself or one of its
descendants, or when `new_parent`'s type admits no children. -/
def move_to_new_parent (t : Tree) (node newParent : Nat) (after : Option Nat) :
    Tree × Option RErr :=
  if t.root.nid = node then (t, some .structuralViolation)
  else
    match parentOfN node t.root, t.root.find node with
    | some _, some sub =>
      if newParent ∈ sub.ids then (t, some .structuralViolation)
      else
        match t.root.find newParent with
        | none => (t, some .structuralViolation)
        | some pnode =>
          if canHaveChildren pnode.payload.ntype = false then (t, some .structuralViolation)
          else
            match after with
            | none =>
              match insFC newParent sub (removeN node t.root) with
              | some r2 => ({ t with root := r2 }, none)
              | none => (t, some .structuralViolation)
            | some a =>
              if a ∈ sub.ids then (t, some .structuralViolation)
              else
                match insA a sub (removeN node t.root) with
                | some r2 => ({ t with root := r2 }, none)
                | none => (t, some .structuralViolation)
    | _, _ => (t, some .structuralViolation)

/-- The bytes a range refers to in an arena. -/
def resolveRange (arena : List Char) (r : StrRange) : List Char :=
  (arena.drop r.off).take r.rlen

/-- Copy the bytes of `r` (read from `srcArena`) to the end of `dstArena`,
returning the grown arena and the new range (spec section 3, cross-tree
relation: text must be re-owned by the destination arena). -/
def copyRange (dstArena srcArena : List Char) (r : StrRange) : List Char × StrRange :=
  (dstArena ++ resolveRange srcArena r,
   ⟨dstArena.length, (resolveRange srcArena r).length⟩)

def copyOptRange (dstArena srcArena : List Char) : Option StrRange → List Char × Option StrRange
  | none => (dstArena, none)
  | some r => ((copyRange dstArena srcArena r).1, some (copyRange dstArena srcArena r).2)

mutual

/-- Modelled from the spec (section 4.1, `move_from_tree`): copy a subtree
out of `srcA`'s tree, duplicating every referenced text range into the
destination arena and renumbering node ids from `nid` upward.  Returns the
copied subtree, the grown destination arena, and the next free id. -/
def copyN (srcA : List Char) (dstA : List Char) (nid : Nat) : RNode → RNode × List Char × Nat
  | .mk _ p cs =>
    let kr := copyOptRange dstA srcA p.key
    let vr := copyOptRange kr.1 srcA p.sval
    let rest := copyF srcA vr.1 (nid + 1) cs
    (.mk nid ⟨p.ntype, kr.2, vr.2⟩ rest.1, rest.2.1, rest.2.2)

def copyF (srcA : List Char) (dstA : List Char) (nid : Nat) : List RNode → List RNode × List Char × Nat
  | [] => ([], dstA, nid)
  | c :: cs =>
    let c2 := copyN srcA dstA nid c
    let rest := copyF srcA c2.2.1 c2.2.2 cs
    (c2.1 :: rest.1, rest.2.1, rest.2.2)

end

def maxId (l : List Nat) : Nat := l.foldr Nat.max 0

/-- First node id not used anywhere in the tree. -/
def freshId (t : Tree) : Nat := maxId t.root.ids + 1

/-- Modelled from the spec (section 4.1, `move_from_tree`): ryml's
cross-tree `c4::yml::Tree::move(Tree*, node, new_parent, after)` is not
under src/; the shim's `move_node_from_tree` only forwards to it.
Copies the subtree rooted at `node` in `src` into `dst`, attaching it
under `newParent` (first child, or immediately following `after`),
duplicating all referenced text into `dst`'s arena, and returns the new
root id in `dst`.  The source tree is left intact (copy, not remove).
Root relocation fails with `structuralViolation`. -/
def move_from_tree (dst src : Tree) (node newParent : Nat) (after : Option Nat) :
    Tree × Tree × Except RErr Nat :=
  if src.root.nid = node then (dst, src, .error .structuralViolation)
  else
    match src.root.find node with
    | none => (dst, src, .error .structuralViolation)
    | some sub =>
      match dst.root.find newParent with
      | none => (dst, src, .error .structuralViolation)
      | some pnode =>
        if canHaveChildren pnode.payload.ntype = false then
          (dst, src, .error .structuralViolation)
        else
          let base := freshId dst
          let cp := copyN src.arena dst.arena base sub
          match after with
          | none =>
            match insFC newParent cp.1 dst.root with
            | some r2 => ({ root := r2, arena := cp.2.1 }, src, .ok base)
            | none => (dst, src, .error .structuralViolation)
          | some a =>
            match insA a cp.1 dst.root with
            | some r2 => ({ root := r2, arena := cp.2.1 }, src, .ok base)
            | none => (dst, src, .error .structuralViolation)

mutual

/-- Modelled from the spec (section 3 ownership rules): deep copy of a
subtree keeping node ids, re-owning every text range into a destination
arena.  This models ryml's `Tree` copy constructor, which is not under
src/ (the shim's `clone_tree` only invokes it). -/
def cloneN (srcA : List Char) (dstA : List Char) : RNode → RNode × List Char
  | .mk i p cs =>
    let kr := copyOptRange dstA srcA p.key
    let vr := copyOptRange kr.1 srcA p.sval
    let rest := cloneF srcA vr.1 cs
    (.mk i ⟨p.ntype, kr.2, vr.2⟩ rest.1, rest.2)

def cloneF (srcA : List Char) (dstA : List Char) : List RNode → List RNode × List Char
  | [] => ([], dstA)
  | c :: cs =>
    let c2 := cloneN srcA dstA c
    let rest := cloneF srcA c2.2 cs
    (c2.1 :: rest.1, rest.2)

end

/-- Modelled from the spec: ryml's `Tree` copy constructor (invoked by the
shim's `clone_tree`, src/include/shim.h line 43) is not under src/.  A
clone owns its own node table and arena (spec sections 3 and 5). -/
def clone_tree (t : Tree) : Tree :=
  let c := cloneN t.arena [] t.root
  { root := c.1, arena := c.2 }

/-- A fully resolved tree: the same shape with all arena ranges replaced by
the byte strings they denote.  Used to state textual equality of trees
living in different arenas. -/
inductive PTree where
  | mk (ntype : NodeType) (key : Option (List Char)) (sval : Option (List Char))
       (children : List PTree)
  deriving Repr

mutual

def resolveN (arena : List Char) : RNode → PTree
  | .mk _ p cs =>
    .mk p.ntype (p.key.map (resolveRange arena)) (p.sval.map (resolveRange arena))
      (resolveF arena cs)

def resolveF (arena : List Char) : List RNode → List PTree
  | [] => []
  | c :: cs => resolveN arena c :: resolveF arena cs

end

/-- A range is in bounds for an arena. -/
def rangeOk (arena : List Char) (r : StrRange) : Bool :=
  decide (r.off + r.rlen ≤ arena.length)

def optRangeOk (arena : List Char) : Option StrRange → Bool
  | none => true
  | some r => rangeOk arena r

mutual

/-- Every text range in the subtree is in bounds for `arena`: the subtree
dangles no reference outside that arena. -/
def rangesOkN (arena : List Char) : RNode → Bool
  | .mk _ p cs => optRangeOk arena p.key && optRangeOk arena p.sval && rangesOkF arena cs

def rangesOkF (arena : List Char) : List RNode → Bool
  | [] => true
  | c :: cs => rangesOkN arena c && rangesOkF arena cs

end

/-! ## Emitter model (spec section 4.2)

`emit_to_rwriter` (src/src/shim.cc lines 43-48) instantiates ryml's
`c4::yml::Emitter` over the shim's `WriterRust`; the emitter internals and
the Rust-side two-pass driver are not under src/, so the two-phase
measure-then-fill protocol is modelled from the spec. -/

def isContainer : NodeType → Bool
  | .doc | .seq | .mmap | .keyseq | .keymap => true
  | _ => false

def isSeqLike : NodeType → Bool
  | .seq | .keyseq => true
  | _ => false

def sepFrag (json : Bool) : List Char := if json then [','] else ['\n']

def openDelim (json : Bool) (nt : NodeType) : List Char :=
  if json then (if isSeqLike nt then [Char.ofNat 91] else [Char.ofNat 123]) else []

def closeDelim (json : Bool) (nt : NodeType) : List Char :=
  if json then (if isSeqLike nt then [Char.ofNat 93] else [Char.ofNat 125]) else []

def quoteFrag (l : List Char) : List Char := '\"' :: (l ++ ['\"'])

mutual

/-- Modelled from the spec (section 4.2): the emitter's single traversal of
the tree, as the sequence of textual fragments it requests to write.  The
`json` flag switches delimiter and quoting rules but not the traversal. -/
def fragsN (arena : List Char) (json : Bool) : RNode → List (List Char)
  | .mk _ p cs =>
    (match p.key with
     | none => []
     | some k => [resolveRange arena k, [':', ' ']]) ++
    (match p.sval with
     | none => []
     | some v => if json then [quoteFrag (resolveRange arena v)] else [resolveRange arena v]) ++
    (if isContainer p.ntype then
      openDelim json p.ntype :: (fragsF arena json cs ++ [closeDelim json p.ntype])
    else [])

def fragsF (arena : List Char) (json : Bool) : List RNode → List (List Char)
  | [] => []
  | c :: cs =>
    fragsN arena json c ++ (if cs.isEmpty then [] else [sepFrag json]) ++ fragsF arena json cs

end

/-- Modelled from the spec (section 4.2): the measuring pass.  For each
fragment it calls `request_buffer(fragment length, error_on_excess :=
false)` — recorded in the returned trace — and accumulates the total byte
length without writing; it never fails. -/
def measurePass : List (List Char) → Nat → Nat × List (Nat × Bool)
  | [], pos => (pos, [])
  | f :: fs, pos =>
    ((measurePass fs (pos + f.length)).1,
     (f.length, false) :: (measurePass fs (pos + f.length)).2)

/-- Modelled from the spec (sections 4.2 and 8): the fill pass.  For each
fragment it calls `request_buffer(fragment length, error_on_excess :=
true)` — recorded in the returned trace — and writes the real bytes; when
the sink capacity `cap` cannot satisfy a request it fails with
`bufferOverflow required available`. -/
def fillPass (cap : Nat) : List (List Char) → Nat → List Char →
    (Except RErr (Nat × List Char)) × List (Nat × Bool)
  | [], pos, buf => (.ok (pos, buf), [])
  | f :: fs, pos, buf =>
    if cap < pos + f.length then
      (.error (.bufferOverflow f.length (cap - pos)), [(f.length, true)])
    else
      ((fillPass cap fs (pos + f.length) (buf ++ f)).1,
       (f.length, true) :: (fillPass cap fs (pos + f.length) (buf ++ f)).2)

/-- Modelled from the spec (section 4.2): one emission over a sink of
capacity `cap`: a measuring pass followed by a fill pass over the same
fragment sequence.  Returns the `total_bytes_written` result (the fill
pass's final position, as `emit_to_rwriter` returns `emit(...).len`) and
the concatenated trace of `request_buffer` calls (minimum size requested,
`error_on_excess` flag). -/
def emit (t : Tree) (json : Bool) (cap : Nat) : (Except RErr Nat) × List (Nat × Bool) :=
  let frags := fragsN t.arena json t.root
  let m := measurePass frags 0
  let f := fillPass cap frags 0 []
  (match f.1 with
   | .ok pb => .ok pb.1
   | .error e => .error e,
   m.2 ++ f.2)

/-- Total byte length computed by the measuring pass alone. -/
def measuredLen (t : Tree) (json : Bool) : Nat :=
  (measurePass (fragsN t.arena json t.root) 0).1

/-! ## ErrorChannel and the shim entry points (src/include/shim.h)

The process-wide state of the one-time error-hook installation, and each
shim entry point embedded as a state transformer: an entry point that
calls `init_ryml_once()` in the source maps the state through
`init_ryml_once`; one that does not leaves the state untouched. -/

structure ProcState where
  installed : Bool
  installCount : Nat
  deriving DecidableEq, Repr

/-- From src/include/shim.h lines 19-32: `init_ryml_once` guards the hook
installation behind a `std::once_flag`, so the installing closure runs
only when it has never run before. -/
def init_ryml_once (s : ProcState) : ProcState :=
  if s.installed then s else { installed := true, installCount := s.installCount + 1 }

/-- From src/include/shim.h line 26: the installed `m_error` hook builds a
`RymlError` whose message is the original message followed by the source
location (name and line). -/
def rymlErrorHook (msg locName : String) (locLine : Nat) : RErr :=
  .runtimeError (msg ++ "\n    at " ++ locName ++ ":" ++ toString locLine)

/-- Outcome of a fatal condition inside the wrapped machinery. -/
inductive FatalOutcome where
  | abortProcess
  | raised (e : RErr)
  deriving DecidableEq, Repr

/-- A fatal condition aborts the process while no hook is installed, and is
translated by the installed hook into a structured error afterwards
(spec section 4.3; hook body from src/include/shim.h lines 25-27). -/
def raiseFatal (s : ProcState) (msg locName : String) (locLine : Nat) : FatalOutcome :=
  if s.installed then .raised (rymlErrorHook msg locName locLine) else .abortProcess

/-- From src/include/shim.h lines 34-38: `new_tree` calls `init_ryml_once`
then constructs an empty tree. -/
def new_tree (s : ProcState) : ProcState × Tree :=
  (init_ryml_once s, { root := .mk 0 ⟨.notype, none, none⟩ [], arena := [] })

/-- From src/include/shim.h lines 40-44: `clone_tree` calls `init_ryml_once`
then copy-constructs the tree. -/
def shim_clone_tree (s : ProcState) (t : Tree) : ProcState × Tree :=
  (init_ryml_once s, clone_tree t)

/-- From src/include/shim.h lines 46-51: `parse` calls `init_ryml_once` then
the external parser (spec section 1 treats the parser as an opaque
collaborator, passed here as `pimpl`). -/
def shim_parse (pimpl : List Char → Tree) (s : ProcState) (text : List Char) :
    ProcState × Tree :=
  (init_ryml_once s, pimpl text)

/-- From src/include/shim.h lines 53-58: `parse_in_place` calls
`init_ryml_once` then the external in-place parser. -/
def shim_parse_in_place (pimpl : List Char → Tree) (s : ProcState) (text : List Char) :
    ProcState × Tree :=
  (init_ryml_once s, pimpl text)

/-- From src/include/shim.h lines 60-63: `tree_node_type` returns
`tree.type(node)` and does not call `init_ryml_once`. -/
def tree_node_type (s : ProcState) (t : Tree) (node : Nat) :
    ProcState × Option NodeType :=
  (s, (t.root.find node).map (fun r => r.payload.ntype))

/-- From src/include/shim.h lines 65-68: `move_node` forwards to
`tree.move(node, after)` and does not call `init_ryml_once`. -/
def move_node (s : ProcState) (t : Tree) (node : Nat) (after : Option Nat) :
    ProcState × (Tree × Option RErr) :=
  (s, move_within t node after)

/-- From src/include/shim.h lines 70-73: `move_node_to_new_parent` forwards
to `tree.move(node, new_parent, after)` and does not call
`init_ryml_once`. -/
def move_node_to_new_parent (s : ProcState) (t : Tree) (node newParent : Nat)
    (after : Option Nat) : ProcState × (Tree × Option RErr) :=
  (s, move_to_new_parent t node newParent after)

/-- From src/include/shim.h lines 75-78: `move_node_from_tree` forwards to
`tree.move(&src, node, new_parent, after)` and does not call
`init_ryml_once`. -/
def move_node_from_tree (s : ProcState) (dst src : Tree) (node newParent : Nat)
    (after : Option Nat) : ProcState × (Tree × Tree × Except RErr Nat) :=
  (s, move_from_tree dst src node newParent after)

/-- From src/src/shim.cc lines 43-48: `emit_to_rwriter` constructs the
emitter and emits; it does not call `init_ryml_once`. -/
def emit_to_rwriter (s : ProcState) (t : Tree) (json : Bool) (cap : Nat) :
    ProcState × ((Except RErr Nat) × List (Nat × Bool)) :=
  (s, emit t json cap)

/-! ## WriterRust call model (src/src/shim.cc lines 7-39) -/

/-- One call forwarded by `WriterRust` to the Rust writer. -/
inductive WriterCall where
  | writeStr (bytes : List Char)
  | writeChar (c : Char)
  | writeRepc (c : Char) (count : Nat)
  | writeSlice (bytes : List Char)
  | getBuf (errorOnExcess : Bool)
  deriving DecidableEq, Repr

/-- The byte contribution of one forwarded call to the sink. -/
def callBytes : WriterCall → Nat
  | .writeStr bs => bs.length
  | .writeChar _ => 1
  | .writeRepc _ n => n
  | .writeSlice bs => bs.length
  | .getBuf _ => 0

/-- The sequence of calls a `WriterRust` has forwarded to its Rust inner
writer. -/
structure RWriterState where
  calls : List WriterCall
  deriving DecidableEq, Repr

/-- Total bytes the forwarded calls contribute to the sink. -/
def sinkBytes (w : RWriterState) : Nat := (w.calls.map callBytes).sum

/-- From src/src/shim.cc lines 33-38: the array overload
`_do_write(const char (&a)[N])` forwards `rust::Slice(a, N)` — a slice
whose length is exactly the array extent `N` — via `_do_write_slice`. -/
def do_write_array (w : RWriterState) (a : List Char) : RWriterState :=
  { w with calls := w.calls ++ [.writeSlice a] }

/-- The character array of a C string literal with text `s`: its characters
followed by the trailing NUL terminator, so its extent is `s.length + 1`. -/
def literalArray (s : String) : List Char :=
  s.data ++ [Char.ofNat 0]

/-! ## Sample trees for concrete witnesses -/

/-- A small map tree: root 0 with scalar children 1 and 2 and a nested
container 3 holding scalar 4. -/
def sampleTree : Tree :=
  { root := .mk 0 ⟨.mmap, none, none⟩
      [.mk 1 ⟨.vval, none, none⟩ [],
       .mk 2 ⟨.vval, none, none⟩ [],
       .mk 3 ⟨.mmap, none, none⟩ [.mk 4 ⟨.vval, none, none⟩ []]],
    arena := [] }

/-- A source tree with arena-owned key and value text on its two
key-value children. -/
def sampleSrc : Tree :=
  { root := .mk 0 ⟨.mmap, none, none⟩
      [.mk 1 ⟨.keyval, some ⟨0, 1⟩, some ⟨1, 1⟩⟩ [],
       .mk 2 ⟨.keyval, some ⟨2, 1⟩, some ⟨3, 1⟩⟩ []],
    arena := ['a', '1', 'b', '2'] }

/-- A destination tree with its own arena text. -/
def sampleDst : Tree :=
  { root := .mk 0 ⟨.mmap, none, none⟩
      [.mk 1 ⟨.keyval, some ⟨0, 1⟩, some ⟨1, 1⟩⟩ []],
    arena := ['x', '9'] }

/-! ## Helper lemmas -/

theorem init_ryml_once_installed (s : ProcState) : (init_ryml_once s).installed = true := by
  by_cases h : s.installed <;> simp [init_ryml_once, h]

theorem init_ryml_once_iterate (n : Nat) :
    init_ryml_once^[n + 1] ⟨false, 0⟩ = ⟨true, 1⟩ := by
  induction n with
  | zero => rfl
  | succ k ih =>
    rw [Function.iterate_succ_apply', ih]
    rfl

theorem measurePass_fst (fs : List (List Char)) (pos : Nat) :
    (measurePass fs pos).1 = pos + (fs.map List.length).sum := by
  induction fs generalizing pos with
  | nil => simp [measurePass]
  | cons f fs ih => simp [measurePass, ih]; omega

theorem measurePass_snd (fs : List (List Char)) (pos : Nat) :
    (measurePass fs pos).2 = fs.map (fun f => (f.length, false)) := by
  induction fs generalizing pos with
  | nil => rfl
  | cons f fs ih => simp [measurePass, ih]

theorem fillPass_ok_fst (cap : Nat) (fs : List (List Char)) (pos : Nat) (buf : List Char)
    (p : Nat) (b : List Char) (h : (fillPass cap fs pos buf).1 = .ok (p, b)) :
    p = pos + (fs.map List.length).sum := by
  induction fs generalizing pos buf with
  | nil =>
    simp [fillPass] at h
    simp [h.1]
  | cons f fs ih =>
    by_cases hc : cap < pos + f.length
    · simp [fillPass, hc] at h
    · simp only [fillPass, if_neg hc] at h
      have := ih (pos + f.length) (buf ++ f) h
      simp [this]
      omega

theorem fillPass_ok_snd (cap : Nat) (fs : List (List Char)) (pos : Nat) (buf : List Char)
    (pb : Nat × List Char) (h : (fillPass cap fs pos buf).1 = .ok pb) :
    (fillPass cap fs pos buf).2 = fs.map (fun f => (f.length, true)) := by
  induction fs generalizing pos buf with
  | nil => rfl
  | cons f fs ih =>
    by_cases hc : cap < pos + f.length
    · simp [fillPass, hc] at h
    · simp only [fillPass, if_neg hc] at h ⊢
      rw [ih (pos + f.length) (buf ++ f) h]
      simp

theorem nid_mem_ids (r : RNode) : r.nid ∈ r.ids := by
  cases r with
  | mk i p cs => simp [RNode.ids, RNode.nid]

mutual

theorem find_absent (n : Nat) (r : RNode) (h : n ∉ r.ids) : RNode.find n r = none := by
  match r with
  | .mk i p cs =>
    simp only [RNode.ids, List.mem_cons, not_or] at h
    have hin : ¬ i = n := fun hh => h.1 hh.symm
    simp only [RNode.find, if_neg hin]
    exact findF_absent n cs h.2

theorem findF_absent (n : Nat) (cs : List RNode) (h : n ∉ RNode.idsF cs) :
    RNode.findF n cs = none := by
  match cs with
  | [] => rfl
  | c :: cs' =>
    simp only [RNode.idsF, List.mem_append, not_or] at h
    simp only [RNode.findF, find_absent n c h.1]
    exact findF_absent n cs' h.2

end

mutual

theorem find_mem (n : Nat) (r x : RNode) (h : RNode.find n r = some x) : n ∈ r.ids := by
  match r with
  | .mk i p cs =>
    simp only [RNode.find] at h
    by_cases hi : i = n
    · simp [RNode.ids, hi.symm]
    · rw [if_neg hi] at h
      simp only [RNode.ids, List.mem_cons]
      exact Or.inr (findF_mem n cs x h)

theorem findF_mem (n : Nat) (cs : List RNode) (x : RNode) (h : RNode.findF n cs = some x) :
    n ∈ RNode.idsF cs := by
  match cs with
  | [] => cases h
  | c :: cs' =>
    simp only [RNode.findF] at h
    simp only [RNode.idsF, List.mem_append]
    cases hc : RNode.find n c with
    | some y => exact Or.inl (find_mem n c y hc)
    | none =>
      rw [hc] at h
      exact Or.inr (findF_mem n cs' x h)

end

mutual

theorem find_nid (n : Nat) (r x : RNode) (h : RNode.find n r = some x) : x.nid = n := by
  match r with
  | .mk i p cs =>
    simp only [RNode.find] at h
    by_cases hi : i = n
    · rw [if_pos hi] at h
      injection h with h'
      rw [← h', RNode.nid, hi]
    · rw [if_neg hi] at h
      exact findF_nid n cs x h

theorem findF_nid (n : Nat) (cs : List RNode) (x : RNode) (h : RNode.findF n cs = some x) :
    x.nid = n := by
  match cs with
  | [] => cases h
  | c :: cs' =>
    simp only [RNode.findF] at h
    cases hc : RNode.find n c with
    | some y =>
      rw [hc] at h
      injection h with h'
      rw [← h']
      exact find_nid n c y hc
    | none =>
      rw [hc] at h
      exact findF_nid n cs' x h

end

theorem find_self (r : RNode) : RNode.find r.nid r = some r := by
  cases r with
  | mk i p cs => simp [RNode.find, RNode.nid]

mutual

theorem find_none_not_mem (n : Nat) (r : RNode) (h : RNode.find n r = none) : n ∉ r.ids := by
  match r with
  | .mk i p cs =>
    simp only [RNode.find] at h
    by_cases hi : i = n
    · rw [if_pos hi] at h
      cases h
    · rw [if_neg hi] at h
      simp only [RNode.ids, List.mem_cons, not_or]
      exact ⟨fun hh => hi hh.symm, findF_none_not_mem n cs h⟩

theorem findF_none_not_mem (n : Nat) (cs : List RNode) (h : RNode.findF n cs = none) :
    n ∉ RNode.idsF cs := by
  match cs with
  | [] => simp [RNode.idsF]
  | c :: cs' =>
    simp only [RNode.findF] at h
    cases hc : RNode.find n c with
    | some y =>
      rw [hc] at h
      cases h
    | none =>
      rw [hc] at h
      simp only [RNode.idsF, List.mem_append, not_or]
      exact ⟨find_none_not_mem n c hc, findF_none_not_mem n cs' h⟩

end

mutual

theorem parentOfN_absent (m : Nat) (r : RNode) (h : m ∉ r.ids) : parentOfN m r = none := by
  match r with
  | .mk i p cs =>
    simp only [RNode.ids, List.mem_cons, not_or] at h
    simp only [parentOfN]
    exact parentOfF_absent m i cs h.2

theorem parentOfF_absent (m pid : Nat) (cs : List RNode) (h : m ∉ RNode.idsF cs) :
    parentOfF m pid cs = none := by
  match cs with
  | [] => rfl
  | c :: cs' =>
    simp only [RNode.idsF, List.mem_append, not_or] at h
    have hc : ¬ c.nid = m := fun he => h.1 (he ▸ nid_mem_ids c)
    simp only [parentOfF, if_neg hc, parentOfN_absent m c h.1]
    exact parentOfF_absent m pid cs' h.2

end

mutual

theorem removeN_absent (n : Nat) (r : RNode) (h : n ∉ r.ids) : removeN n r = r := by
  match r with
  | .mk i p cs =>
    simp only [RNode.ids, List.mem_cons, not_or] at h
    simp only [removeN, removeF_absent n cs h.2]

theorem removeF_absent (n : Nat) (cs : List RNode) (h : n ∉ RNode.idsF cs) :
    removeF n cs = cs := by
  match cs with
  | [] => rfl
  | c :: cs' =>
    simp only [RNode.idsF, List.mem_append, not_or] at h
    have hc : ¬ c.nid = n := fun he => h.1 (he ▸ nid_mem_ids c)
    simp only [removeF, if_neg hc, removeN_absent n c h.1, removeF_absent n cs' h.2]

end

theorem removeN_nid (n : Nat) (r : RNode) : (removeN n r).nid = r.nid := by
  cases r with
  | mk i p cs => rfl

mutual

theorem removeN_perm (n : Nat) (r sub : RNode) (hroot : ¬ r.nid = n)
    (hnd : r.ids.Nodup) (h : RNode.find n r = some sub) :
    r.ids.Perm ((removeN n r).ids ++ sub.ids) := by
  match r with
  | .mk i p cs =>
    have hi : ¬ i = n := hroot
    rw [RNode.find, if_neg hi] at h
    simp only [removeN, RNode.ids]
    rw [List.cons_append]
    exact List.Perm.cons i
      (removeF_perm n cs sub ((List.nodup_cons.mp hnd).2) h)

theorem removeF_perm (n : Nat) (cs : List RNode) (sub : RNode)
    (hnd : (RNode.idsF cs).Nodup) (h : RNode.findF n cs = some sub) :
    (RNode.idsF cs).Perm (RNode.idsF (removeF n cs) ++ sub.ids) := by
  match cs with
  | [] => cases h
  | c :: cs' =>
    rw [RNode.findF] at h
    rw [RNode.idsF] at hnd ⊢
    by_cases hc : c.nid = n
    · have hfc : RNode.find n c = some c := by
        have := find_self c
        rw [hc] at this
        exact this
      rw [hfc] at h
      injection h with h'
      subst h'
      simp only [removeF, if_pos hc]
      exact List.perm_append_comm
    · simp only [removeF, if_neg hc]
      cases hfc : RNode.find n c with
      | some x =>
        rw [hfc] at h
        injection h with h'
        have hnc : n ∈ c.ids := find_mem n c x hfc
        have hdisj := (List.nodup_append.mp hnd).2.2
        have hnn : n ∉ RNode.idsF cs' := fun hm => hdisj hnc hm
        rw [removeF_absent n cs' hnn, RNode.idsF, ← h']
        have ih := removeN_perm n c x hc ((List.nodup_append.mp hnd).1) hfc
        refine (ih.append_right (RNode.idsF cs')).trans ?_
        simp only [List.append_assoc]
        exact List.Perm.append_left _ List.perm_append_comm
      | none =>
        rw [hfc] at h
        have hnc : n ∉ c.ids := find_none_not_mem n c hfc
        rw [removeN_absent n c hnc, RNode.idsF]
        have ih := removeF_perm n cs' sub ((List.nodup_append.mp hnd).2.1) h
        simp only [List.append_assoc]
        exact List.Perm.append_left _ ih

end

mutual

theorem parentOfN_remove (n m : Nat) (r sub : RNode) (hroot : ¬ r.nid = n)
    (hnd : r.ids.Nodup) (h : RNode.find n r = some sub) (hm : m ∉ sub.ids) :
    parentOfN m (removeN n r) = parentOfN m r := by
  match r with
  | .mk i p cs =>
    have hi : ¬ i = n := hroot
    rw [RNode.find, if_neg hi] at h
    simp only [removeN, parentOfN]
    exact parentOfF_remove n m i cs sub ((List.nodup_cons.mp hnd).2) h hm

theorem parentOfF_remove (n m pid : Nat) (cs : List RNode) (sub : RNode)
    (hnd : (RNode.idsF cs).Nodup) (h : RNode.findF n cs = some sub) (hm : m ∉ sub.ids) :
    parentOfF m pid (removeF n cs) = parentOfF m pid cs := by
  match cs with
  | [] => cases h
  | c :: cs' =>
    rw [RNode.findF] at h
    rw [RNode.idsF] at hnd
    by_cases hc : c.nid = n
    · have hfc : RNode.find n c = some c := by
        have := find_self c
        rw [hc] at this
        exact this
      rw [hfc] at h
      injection h with h'
      subst h'
      simp only [removeF, if_pos hc]
      have hcm : ¬ c.nid = m := fun he => hm (he ▸ nid_mem_ids c)
      rw [parentOfF, if_neg hcm, parentOfN_absent m c hm]
    · simp only [removeF, if_neg hc]
      cases hfc : RNode.find n c with
      | some x =>
        rw [hfc] at h
        injection h with h'
        have hnc : n ∈ c.ids := find_mem n c x hfc
        have hdisj := (List.nodup_append.mp hnd).2.2
        have hnn : n ∉ RNode.idsF cs' := fun hmm => hdisj hnc hmm
        rw [removeF_absent n cs' hnn]
        have hmx : m ∉ x.ids := h' ▸ hm
        have ih := parentOfN_remove n m c x hc ((List.nodup_append.mp hnd).1) hfc hmx
        rw [parentOfF, parentOfF, removeN_nid, ih]
      | none =>
        rw [hfc] at h
        have hnc : n ∉ c.ids := find_none_not_mem n c hfc
        rw [removeN_absent n c hnc]
        have ih := parentOfF_remove n m pid cs' sub ((List.nodup_append.mp hnd).2.1) h hm
        rw [parentOfF, parentOfF, ih]

end

theorem insA_nid (a : Nat) (sub r r2 : RNode) (h : insA a sub r = some r2) :
    r2.nid = r.nid := by
  cases r with
  | mk i p cs =>
    simp only [insA] at h
    cases hf : insAF a sub cs with
    | none => rw [hf] at h; cases h
    | some cs2 =>
      rw [hf] at h
      injection h with h'
      rw [← h']
      rfl

theorem insFC_nid (pid : Nat) (sub r r2 : RNode) (h : insFC pid sub r = some r2) :
    r2.nid = r.nid := by
  cases r with
  | mk i p cs =>
    simp only [insFC] at h
    by_cases hp : i = pid
    · rw [if_pos hp] at h
      injection h with h'
      rw [← h']
      rfl
    · rw [if_neg hp] at h
      cases hf : insFCF pid sub cs with
      | none => rw [hf] at h; cases h
      | some cs2 =>
        rw [hf] at h
        injection h with h'
        rw [← h']
        rfl

mutual

theorem insA_none_parent (a : Nat) (sub r : RNode) (h : insA a sub r = none) :
    parentOfN a r = none := by
  match r with
  | .mk i p cs =>
    simp only [insA] at h
    cases hf : insAF a sub cs with
    | some cs2 => rw [hf] at h; cases h
    | none =>
      simp only [parentOfN]
      exact insAF_none_parent a i sub cs hf

theorem insAF_none_parent (a pid : Nat) (sub : RNode) (cs : List RNode)
    (h : insAF a sub cs = none) : parentOfF a pid cs = none := by
  match cs with
  | [] => rfl
  | c :: cs' =>
    rw [insAF] at h
    by_cases hc : c.nid = a
    · rw [if_pos hc] at h
      cases h
    · rw [if_neg hc] at h
      cases hic : insA a sub c with
      | some c2 => rw [hic] at h; cases h
      | none =>
        rw [hic] at h
        cases hff : insAF a sub cs' with
        | some cs2 => rw [hff] at h; cases h
        | none =>
          rw [parentOfF, if_neg hc, insA_none_parent a sub c hic]
          exact insAF_none_parent a pid sub cs' hff

end

mutual

theorem insA_none_nextSib (a : Nat) (sub r : RNode) (h : insA a sub r = none) :
    nextSibN a r = none := by
  match r with
  | .mk i p cs =>
    simp only [insA] at h
    cases hf : insAF a sub cs with
    | some cs2 => rw [hf] at h; cases h
    | none =>
      simp only [nextSibN]
      exact insAF_none_nextSib a sub cs hf

theorem insAF_none_nextSib (a : Nat) (sub : RNode) (cs : List RNode)
    (h : insAF a sub cs = none) : nextSibF a cs = none := by
  match cs with
  | [] => rfl
  | c :: cs' =>
    rw [insAF] at h
    by_cases hc : c.nid = a
    · rw [if_pos hc] at h
      cases h
    · rw [if_neg hc] at h
      cases hic : insA a sub c with
      | some c2 => rw [hic] at h; cases h
      | none =>
        rw [hic] at h
        cases hff : insAF a sub cs' with
        | some cs2 => rw [hff] at h; cases h
        | none =>
          rw [nextSibF, if_neg hc, insA_none_nextSib a sub c hic]
          exact insAF_none_nextSib a sub cs' hff

end

mutual

theorem insFC_none_find (pid : Nat) (sub r : RNode) (h : insFC pid sub r = none) :
    RNode.find pid r = none := by
  match r with
  | .mk i p cs =>
    simp only [insFC] at h
    by_cases hp : i = pid
    · rw [if_pos hp] at h
      cases h
    · rw [if_neg hp] at h
      cases hf : insFCF pid sub cs with
      | some cs2 => rw [hf] at h; cases h
      | none =>
        rw [RNode.find, if_neg hp]
        exact insFCF_none_find pid sub cs hf

theorem insFCF_none_find (pid : Nat) (sub : RNode) (cs : List RNode)
    (h : insFCF pid sub cs = none) : RNode.findF pid cs = none := by
  match cs with
  | [] => rfl
  | c :: cs' =>
    rw [insFCF] at h
    cases hic : insFC pid sub c with
    | some c2 => rw [hic] at h; cases h
    | none =>
      rw [hic] at h
      cases hff : insFCF pid sub cs' with
      | some cs2 => rw [hff] at h; cases h
      | none =>
        rw [RNode.findF, insFC_none_find pid sub c hic]
        exact insFCF_none_find pid sub cs' hff

end

mutual

theorem insA_find_sub (a : Nat) (sub r r2 : RNode) (hni : sub.nid ∉ r.ids)
    (h : insA a sub r = some r2) : RNode.find sub.nid r2 = some sub := by
  match r with
  | .mk i p cs =>
    simp only [RNode.ids, List.mem_cons, not_or] at hni
    simp only [insA] at h
    cases hf : insAF a sub cs with
    | none => rw [hf] at h; cases h
    | some cs2 =>
      rw [hf] at h
      injection h with h'
      rw [← h', RNode.find, if_neg (fun hh => hni.1 hh.symm)]
      exact insAF_find_sub a sub cs cs2 hni.2 hf

theorem insAF_find_sub (a : Nat) (sub : RNode) (cs cs2 : List RNode)
    (hni : sub.nid ∉ RNode.idsF cs) (h : insAF a sub cs = some cs2) :
    RNode.findF sub.nid cs2 = some sub := by
  match cs with
  | [] => cases h
  | c :: cs' =>
    simp only [RNode.idsF, List.mem_append, not_or] at hni
    rw [insAF] at h
    by_cases hc : c.nid = a
    · rw [if_pos hc] at h
      injection h with h'
      rw [← h', RNode.findF, find_absent sub.nid c hni.1, RNode.findF, find_self sub]
    · rw [if_neg hc] at h
      cases hic : insA a sub c with
      | some c2 =>
        rw [hic] at h
        injection h with h'
        rw [← h', RNode.findF, insA_find_sub a sub c c2 hni.1 hic]
      | none =>
        rw [hic] at h
        cases hff : insAF a sub cs' with
        | none => rw [hff] at h; cases h
        | some cs2' =>
          rw [hff] at h
          injection h with h'
          rw [← h', RNode.findF, find_absent sub.nid c hni.1]
          exact insAF_find_sub a sub cs' cs2' hni.2 hff

end

mutual

theorem insA_nextSib (a : Nat) (sub r r2 : RNode) (h : insA a sub r = some r2) :
    nextSibN a r2 = some sub.nid := by
  match r with
  | .mk i p cs =>
    simp only [insA] at h
    cases hf : insAF a sub cs with
    | none => rw [hf] at h; cases h
    | some cs2 =>
      rw [hf] at h
      injection h with h'
      rw [← h', nextSibN]
      exact insAF_nextSib a sub cs cs2 hf

theorem insAF_nextSib (a : Nat) (sub : RNode) (cs cs2 : List RNode)
    (h : insAF a sub cs = some cs2) : nextSibF a cs2 = some sub.nid := by
  match cs with
  | [] => cases h
  | c :: cs' =>
    rw [insAF] at h
    by_cases hc : c.nid = a
    · rw [if_pos hc] at h
      injection h with h'
      rw [← h', nextSibF, if_pos hc]
      rfl
    · rw [if_neg hc] at h
      cases hic : insA a sub c with
      | some c2 =>
        rw [hic] at h
        injection h with h'
        have hc2 : ¬ c2.nid = a := by
          rw [insA_nid a sub c c2 hic]
          exact hc
        rw [← h', nextSibF, if_neg hc2, insA_nextSib a sub c c2 hic]
      | none =>
        rw [hic] at h
        cases hff : insAF a sub cs' with
        | none => rw [hff] at h; cases h
        | some cs2' =>
          rw [hff] at h
          injection h with h'
          rw [← h', nextSibF, if_neg hc, insA_none_nextSib a sub c hic]
          exact insAF_nextSib a sub cs' cs2' hff

end

mutual

theorem insA_some_parent (a : Nat) (sub r r2 : RNode) (h : insA a sub r = some r2) :
    ∃ q, parentOfN a r = some q := by
  match r with
  | .mk i p cs =>
    simp only [insA] at h
    cases hf : insAF a sub cs with
    | none => rw [hf] at h; cases h
    | some cs2 =>
      simp only [parentOfN]
      exact insAF_some_parent a i sub cs cs2 hf

theorem insAF_some_parent (a pid : Nat) (sub : RNode) (cs cs2 : List RNode)
    (h : insAF a sub cs = some cs2) : ∃ q, parentOfF a pid cs = some q := by
  match cs with
  | [] => cases h
  | c :: cs' =>
    rw [insAF] at h
    by_cases hc : c.nid = a
    · exact ⟨pid, by rw [parentOfF, if_pos hc]⟩
    · rw [if_neg hc] at h
      cases hic : insA a sub c with
      | some c2 =>
        obtain ⟨q, hq⟩ := insA_some_parent a sub c c2 hic
        exact ⟨q, by rw [parentOfF, if_neg hc, hq]⟩
      | none =>
        rw [hic] at h
        cases hff : insAF a sub cs' with
        | none => rw [hff] at h; cases h
        | some cs2' =>
          obtain ⟨q, hq⟩ := insAF_some_parent a pid sub cs' cs2' hff
          exact ⟨q, by rw [parentOfF, if_neg hc, insA_none_parent a sub c hic, hq]⟩

end

mutual

theorem insA_parent (a : Nat) (sub r r2 : RNode) (hni : sub.nid ∉ r.ids)
    (h : insA a sub r = some r2) : parentOfN sub.nid r2 = parentOfN a r := by
  match r with
  | .mk i p cs =>
    simp only [RNode.ids, List.mem_cons, not_or] at hni
    simp only [insA] at h
    cases hf : insAF a sub cs with
    | none => rw [hf] at h; cases h
    | some cs2 =>
      rw [hf] at h
      injection h with h'
      rw [← h']
      simp only [parentOfN]
      exact insAF_parent a i sub cs cs2 hni.2 hf

theorem insAF_parent (a pid : Nat) (sub : RNode) (cs cs2 : List RNode)
    (hni : sub.nid ∉ RNode.idsF cs) (h : insAF a sub cs = some cs2) :
    parentOfF sub.nid pid cs2 = parentOfF a pid cs := by
  match cs with
  | [] => cases h
  | c :: cs' =>
    simp only [RNode.idsF, List.mem_append, not_or] at hni
    rw [insAF] at h
    by_cases hc : c.nid = a
    · rw [if_pos hc] at h
      injection h with h'
      have hcs : ¬ c.nid = sub.nid := fun he => hni.1 (he ▸ nid_mem_ids c)
      rw [← h', parentOfF, if_neg hcs, parentOfN_absent sub.nid c hni.1, parentOfF,
        if_pos rfl, parentOfF, if_pos hc]
    · rw [if_neg hc] at h
      cases hic : insA a sub c with
      | some c2 =>
        rw [hic] at h
        injection h with h'
        have hcs : ¬ c2.nid = sub.nid := by
          rw [insA_nid a sub c c2 hic]
          exact fun he => hni.1 (he ▸ nid_mem_ids c)
        obtain ⟨q, hq⟩ := insA_some_parent a sub c c2 hic
        rw [← h', parentOfF, if_neg hcs, insA_parent a sub c c2 hni.1 hic, parentOfF,
          if_neg hc, hq]
      | none =>
        rw [hic] at h
        cases hff : insAF a sub cs' with
        | none => rw [hff] at h; cases h
        | some cs2' =>
          rw [hff] at h
          injection h with h'
          have hcs : ¬ c.nid = sub.nid := fun he => hni.1 (he ▸ nid_mem_ids c)
          rw [← h', parentOfF, if_neg hcs, parentOfN_absent sub.nid c hni.1, parentOfF,
            if_neg hc, insA_none_parent a sub c hic]
          exact insAF_parent a pid sub cs' cs2' hni.2 hff

end

mutual

theorem insFC_find_sub (pid : Nat) (sub r r2 : RNode) (hni : sub.nid ∉ r.ids)
    (h : insFC pid sub r = some r2) : RNode.find sub.nid r2 = some sub := by
  match r with
  | .mk i p cs =>
    simp only [RNode.ids, List.mem_cons, not_or] at hni
    simp only [insFC] at h
    by_cases hp : i = pid
    · rw [if_pos hp] at h
      injection h with h'
      rw [← h', RNode.find, if_neg (fun hh => hni.1 hh.symm), RNode.findF, find_self sub]
    · rw [if_neg hp] at h
      cases hf : insFCF pid sub cs with
      | none => rw [hf] at h; cases h
      | some cs2 =>
        rw [hf] at h
        injection h with h'
        rw [← h', RNode.find, if_neg (fun hh => hni.1 hh.symm)]
        exact insFCF_find_sub pid sub cs cs2 hni.2 hf

theorem insFCF_find_sub (pid : Nat) (sub : RNode) (cs cs2 : List RNode)
    (hni : sub.nid ∉ RNode.idsF cs) (h : insFCF pid sub cs = some cs2) :
    RNode.findF sub.nid cs2 = some sub := by
  match cs with
  | [] => cases h
  | c :: cs' =>
    simp only [RNode.idsF, List.mem_append, not_or] at hni
    rw [insFCF] at h
    cases hic : insFC pid sub c with
    | some c2 =>
      rw [hic] at h
      injection h with h'
      rw [← h', RNode.findF, insFC_find_sub pid sub c c2 hni.1 hic]
    | none =>
      rw [hic] at h
      cases hff : insFCF pid sub cs' with
      | none => rw [hff] at h; cases h
      | some cs2' =>
        rw [hff] at h
        injection h with h'
        rw [← h', RNode.findF, find_absent sub.nid c hni.1]
        exact insFCF_find_sub pid sub cs' cs2' hni.2 hff

end

mutual

theorem insFC_find_self (pid : Nat) (sub r r2 : RNode) (h : insFC pid sub r = some r2) :
    ∃ pp ds, RNode.find pid r = some (.mk pid pp ds) ∧
      RNode.find pid r2 = some (.mk pid pp (sub :: ds)) := by
  match r with
  | .mk i p cs =>
    simp only [insFC] at h
    by_cases hp : i = pid
    · rw [if_pos hp] at h
      injection h with h'
      subst hp
      refine ⟨p, cs, ?_, ?_⟩
      · rw [RNode.find, if_pos rfl]
      · rw [← h', RNode.find, if_pos rfl]
    · rw [if_neg hp] at h
      cases hf : insFCF pid sub cs with
      | none => rw [hf] at h; cases h
      | some cs2 =>
        rw [hf] at h
        injection h with h'
        obtain ⟨pp, ds, h1, h2⟩ := insFCF_find_self pid sub cs cs2 hf
        refine ⟨pp, ds, ?_, ?_⟩
        · rw [RNode.find, if_neg hp]
          exact h1
        · rw [← h', RNode.find, if_neg hp]
          exact h2

theorem insFCF_find_self (pid : Nat) (sub : RNode) (cs cs2 : List RNode)
    (h : insFCF pid sub cs = some cs2) :
    ∃ pp ds, RNode.findF pid cs = some (.mk pid pp ds) ∧
      RNode.findF pid cs2 = some (.mk pid pp (sub :: ds)) := by
  match cs with
  | [] => cases h
  | c :: cs' =>
    rw [insFCF] at h
    cases hic : insFC pid sub c with
    | some c2 =>
      rw [hic] at h
      injection h with h'
      obtain ⟨pp, ds, h1, h2⟩ := insFC_find_self pid sub c c2 hic
      refine ⟨pp, ds, ?_, ?_⟩
      · rw [RNode.findF, h1]
      · rw [← h', RNode.findF, h2]
    | none =>
      rw [hic] at h
      cases hff : insFCF pid sub cs' with
      | none => rw [hff] at h; cases h
      | some cs2' =>
        rw [hff] at h
        injection h with h'
        obtain ⟨pp, ds, h1, h2⟩ := insFCF_find_self pid sub cs' cs2' hff
        refine ⟨pp, ds, ?_, ?_⟩
        · rw [RNode.findF, insFC_none_find pid sub c hic]
          exact h1
        · rw [← h', RNode.findF, insFC_none_find pid sub c hic]
          exact h2

end

mutual

theorem insFC_parent (pid : Nat) (sub r r2 : RNode) (hni : sub.nid ∉ r.ids)
    (h : insFC pid sub r = some r2) : parentOfN sub.nid r2 = some pid := by
  match r with
  | .mk i p cs =>
    simp only [RNode.ids, List.mem_cons, not_or] at hni
    simp only [insFC] at h
    by_cases hp : i = pid
    · rw [if_pos hp] at h
      injection h with h'
      subst hp
      rw [← h', parentOfN, parentOfF, if_pos rfl]
    · rw [if_neg hp] at h
      cases hf : insFCF pid sub cs with
      | none => rw [hf] at h; cases h
      | some cs2 =>
        rw [hf] at h
        injection h with h'
        rw [← h', parentOfN]
        exact insFCF_parent pid i sub cs cs2 hni.2 hf

theorem insFCF_parent (pid q : Nat) (sub : RNode) (cs cs2 : List RNode)
    (hni : sub.nid ∉ RNode.idsF cs) (h : insFCF pid sub cs = some cs2) :
    parentOfF sub.nid q cs2 = some pid := by
  match cs with
  | [] => cases h
  | c :: cs' =>
    simp only [RNode.idsF, List.mem_append, not_or] at hni
    rw [insFCF] at h
    cases hic : insFC pid sub c with
    | some c2 =>
      rw [hic] at h
      injection h with h'
      have hcs : ¬ c2.nid = sub.nid := by
        rw [insFC_nid pid sub c c2 hic]
        exact fun he => hni.1 (he ▸ nid_mem_ids c)
      rw [← h', parentOfF, if_neg hcs, insFC_parent pid sub c c2 hni.1 hic]
    | none =>
      rw [hic] at h
      cases hff : insFCF pid sub cs' with
      | none => rw [hff] at h; cases h
      | some cs2' =>
        rw [hff] at h
        injection h with h'
        have hcs : ¬ c.nid = sub.nid := fun he => hni.1 (he ▸ nid_mem_ids c)
        rw [← h', parentOfF, if_neg hcs, parentOfN_absent sub.nid c hni.1]
        exact insFCF_parent pid q sub cs' cs2' hni.2 hff

end

theorem resolveRange_append_new (d b : List Char) :
    resolveRange (d ++ b) ⟨d.length, b.length⟩ = b := by
  show ((d ++ b).drop d.length).take b.length = b
  rw [List.drop_left, List.take_length]

theorem rangeOk_append (a e : List Char) (r : StrRange) (h : rangeOk a r = true) :
    rangeOk (a ++ e) r = true := by
  simp only [rangeOk, decide_eq_true_eq, List.length_append] at h ⊢
  omega

theorem resolveRange_mono (a e : List Char) (r : StrRange) (h : rangeOk a r = true) :
    resolveRange (a ++ e) r = resolveRange a r := by
  simp only [rangeOk, decide_eq_true_eq] at h
  rw [resolveRange, resolveRange, List.drop_append_of_le_length (by omega),
    List.take_append_of_le_length (by rw [List.length_drop]; omega)]

theorem optRangeOk_mono (a e : List Char) (o : Option StrRange)
    (h : optRangeOk a o = true) : optRangeOk (a ++ e) o = true := by
  cases o with
  | none => rfl
  | some r => exact rangeOk_append a e r h

theorem optResolve_mono (a e : List Char) (o : Option StrRange)
    (h : optRangeOk a o = true) :
    o.map (resolveRange (a ++ e)) = o.map (resolveRange a) := by
  cases o with
  | none => rfl
  | some r => rw [Option.map_some', Option.map_some', resolveRange_mono a e r h]

theorem copyOptRange_prefix (d srcA : List Char) (o : Option StrRange) :
    ∃ ext, (copyOptRange d srcA o).1 = d ++ ext := by
  cases o with
  | none => exact ⟨[], by simp [copyOptRange]⟩
  | some r => exact ⟨resolveRange srcA r, rfl⟩

theorem copyOptRange_ok (d srcA : List Char) (o : Option StrRange) :
    optRangeOk (copyOptRange d srcA o).1 (copyOptRange d srcA o).2 = true := by
  cases o with
  | none => rfl
  | some r =>
    simp only [copyOptRange, optRangeOk, copyRange, rangeOk, decide_eq_true_eq,
      List.length_append]
    omega

theorem copyOptRange_resolve (d srcA : List Char) (o : Option StrRange) :
    (copyOptRange d srcA o).2.map (resolveRange (copyOptRange d srcA o).1) =
      o.map (resolveRange srcA) := by
  cases o with
  | none => rfl
  | some r =>
    simp only [copyOptRange, copyRange, Option.map_some']
    rw [resolveRange_append_new]

mutual

theorem rangesOkN_mono (a e : List Char) (r : RNode) (h : rangesOkN a r = true) :
    rangesOkN (a ++ e) r = true := by
  match r with
  | .mk i p cs =>
    simp only [rangesOkN, Bool.and_eq_true] at h ⊢
    exact ⟨⟨optRangeOk_mono a e p.key h.1.1, optRangeOk_mono a e p.sval h.1.2⟩,
      rangesOkF_mono a e cs h.2⟩

theorem rangesOkF_mono (a e : List Char) (cs : List RNode) (h : rangesOkF a cs = true) :
    rangesOkF (a ++ e) cs = true := by
  match cs with
  | [] => rfl
  | c :: cs' =>
    simp only [rangesOkF, Bool.and_eq_true] at h ⊢
    exact ⟨rangesOkN_mono a e c h.1, rangesOkF_mono a e cs' h.2⟩

end

mutual

theorem resolveN_mono (a e : List Char) (r : RNode) (h : rangesOkN a r = true) :
    resolveN (a ++ e) r = resolveN a r := by
  match r with
  | .mk i p cs =>
    simp only [rangesOkN, Bool.and_eq_true] at h
    simp only [resolveN]
    rw [optResolve_mono a e p.key h.1.1, optResolve_mono a e p.sval h.1.2,
      resolveF_mono a e cs h.2]

theorem resolveF_mono (a e : List Char) (cs : List RNode) (h : rangesOkF a cs = true) :
    resolveF (a ++ e) cs = resolveF a cs := by
  match cs with
  | [] => rfl
  | c :: cs' =>
    simp only [rangesOkF, Bool.and_eq_true] at h
    simp only [resolveF]
    rw [resolveN_mono a e c h.1, resolveF_mono a e cs' h.2]

end

mutual

theorem copyN_spec (srcA dstA : List Char) (nid : Nat) (r : RNode) :
    (∃ ext, (copyN srcA dstA nid r).2.1 = dstA ++ ext) ∧
    (copyN srcA dstA nid r).1.nid = nid ∧
    rangesOkN (copyN srcA dstA nid r).2.1 (copyN srcA dstA nid r).1 = true ∧
    resolveN (copyN srcA dstA nid r).2.1 (copyN srcA dstA nid r).1 = resolveN srcA r := by
  match r with
  | .mk j p cs =>
    obtain ⟨ext1, he1⟩ := copyOptRange_prefix dstA srcA p.key
    obtain ⟨ext2, he2⟩ :=
      copyOptRange_prefix (copyOptRange dstA srcA p.key).1 srcA p.sval
    obtain ⟨⟨ext3, he3⟩, hokF, hresF⟩ :=
      copyF_spec srcA
        ((copyOptRange (copyOptRange dstA srcA p.key).1 srcA p.sval).1) (nid + 1) cs
    have hok1 := copyOptRange_ok dstA srcA p.key
    have hok2 := copyOptRange_ok (copyOptRange dstA srcA p.key).1 srcA p.sval
    have hres1 := copyOptRange_resolve dstA srcA p.key
    have hres2 := copyOptRange_resolve (copyOptRange dstA srcA p.key).1 srcA p.sval
    have hstep : (copyF srcA
        ((copyOptRange (copyOptRange dstA srcA p.key).1 srcA p.sval).1) (nid + 1) cs).2.1 =
        (copyOptRange dstA srcA p.key).1 ++ (ext2 ++ ext3) := by
      rw [he3, he2, List.append_assoc]
    simp only [copyN]
    refine ⟨⟨ext1 ++ (ext2 ++ ext3), ?_⟩, rfl, ?_, ?_⟩
    · rw [he3, he2, he1]
      simp [List.append_assoc]
    · simp only [rangesOkN, Bool.and_eq_true]
      refine ⟨⟨?_, ?_⟩, hokF⟩
      · rw [hstep]
        exact optRangeOk_mono _ _ _ hok1
      · rw [he3]
        exact optRangeOk_mono _ _ _ hok2
    · simp only [resolveN]
      rw [hstep, optResolve_mono _ _ _ hok1, hres1, ← hstep, he3,
        optResolve_mono _ _ _ hok2, hres2, ← he3, hresF]

theorem copyF_spec (srcA dstA : List Char) (nid : Nat) (cs : List RNode) :
    (∃ ext, (copyF srcA dstA nid cs).2.1 = dstA ++ ext) ∧
    rangesOkF (copyF srcA dstA nid cs).2.1 (copyF srcA dstA nid cs).1 = true ∧
    resolveF (copyF srcA dstA nid cs).2.1 (copyF srcA dstA nid cs).1 = resolveF srcA cs := by
  match cs with
  | [] => exact ⟨⟨[], by simp [copyF]⟩, rfl, rfl⟩
  | c :: cs' =>
    obtain ⟨⟨ext1, he1⟩, _, hokc, hresc⟩ := copyN_spec srcA dstA nid c
    obtain ⟨⟨ext2, he2⟩, hokF, hresF⟩ :=
      copyF_spec srcA ((copyN srcA dstA nid c).2.1) ((copyN srcA dstA nid c).2.2) cs'
    simp only [copyF]
    refine ⟨⟨ext1 ++ ext2, ?_⟩, ?_, ?_⟩
    · rw [he2, he1, List.append_assoc]
    · simp only [rangesOkF, Bool.and_eq_true]
      refine ⟨?_, hokF⟩
      rw [he2]
      exact rangesOkN_mono _ _ _ hokc
    · simp only [resolveF]
      rw [he2, resolveN_mono _ _ _ hokc, hresc, ← he2, hresF]

end

mutual

theorem cloneN_spec (srcA dstA : List Char) (r : RNode) :
    (∃ ext, (cloneN srcA dstA r).2 = dstA ++ ext) ∧
    (cloneN srcA dstA r).1.ids = r.ids ∧
    rangesOkN (cloneN srcA dstA r).2 (cloneN srcA dstA r).1 = true ∧
    resolveN (cloneN srcA dstA r).2 (cloneN srcA dstA r).1 = resolveN srcA r := by
  match r with
  | .mk j p cs =>
    obtain ⟨ext1, he1⟩ := copyOptRange_prefix dstA srcA p.key
    obtain ⟨ext2, he2⟩ :=
      copyOptRange_prefix (copyOptRange dstA srcA p.key).1 srcA p.sval
    obtain ⟨⟨ext3, he3⟩, hids, hokF, hresF⟩ :=
      cloneF_spec srcA
        ((copyOptRange (copyOptRange dstA srcA p.key).1 srcA p.sval).1) cs
    have hok1 := copyOptRange_ok dstA srcA p.key
    have hok2 := copyOptRange_ok (copyOptRange dstA srcA p.key).1 srcA p.sval
    have hres1 := copyOptRange_resolve dstA srcA p.key
    have hres2 := copyOptRange_resolve (copyOptRange dstA srcA p.key).1 srcA p.sval
    have hstep : (cloneF srcA
        ((copyOptRange (copyOptRange dstA srcA p.key).1 srcA p.sval).1) cs).2 =
        (copyOptRange dstA srcA p.key).1 ++ (ext2 ++ ext3) := by
      rw [he3, he2, List.append_assoc]
    simp only [cloneN]
    refine ⟨⟨ext1 ++ (ext2 ++ ext3), ?_⟩, ?_, ?_, ?_⟩
    · rw [he3, he2, he1]
      simp [List.append_assoc]
    · simp only [RNode.ids]
      rw [hids]
    · simp only [rangesOkN, Bool.and_eq_true]
      refine ⟨⟨?_, ?_⟩, hokF⟩
      · rw [hstep]
        exact optRangeOk_mono _ _ _ hok1
      · rw [he3]
        exact optRangeOk_mono _ _ _ hok2
    · simp only [resolveN]
      rw [hstep, optResolve_mono _ _ _ hok1, hres1, ← hstep, he3,
        optResolve_mono _ _ _ hok2, hres2, ← he3, hresF]

theorem cloneF_spec (srcA dstA : List Char) (cs : List RNode) :
    (∃ ext, (cloneF srcA dstA cs).2 = dstA ++ ext) ∧
    RNode.idsF (cloneF srcA dstA cs).1 = RNode.idsF cs ∧
    rangesOkF (cloneF srcA dstA cs).2 (cloneF srcA dstA cs).1 = true ∧
    resolveF (cloneF srcA dstA cs).2 (cloneF srcA dstA cs).1 = resolveF srcA cs := by
  match cs with
  | [] => exact ⟨⟨[], by simp [cloneF]⟩, rfl, rfl, rfl⟩
  | c :: cs' =>
    obtain ⟨⟨ext1, he1⟩, hidsc, hokc, hresc⟩ := cloneN_spec srcA dstA c
    obtain ⟨⟨ext2, he2⟩, hidsF, hokF, hresF⟩ :=
      cloneF_spec srcA ((cloneN srcA dstA c).2) cs'
    simp only [cloneF]
    refine ⟨⟨ext1 ++ ext2, ?_⟩, ?_, ?_, ?_⟩
    · rw [he2, he1, List.append_assoc]
    · simp only [RNode.idsF]
      rw [hidsc, hidsF]
    · simp only [rangesOkF, Bool.and_eq_true]
      refine ⟨?_, hokF⟩
      rw [he2]
      exact rangesOkN_mono _ _ _ hokc
    · simp only [resolveF]
      rw [he2, resolveN_mono _ _ _ hokc, hresc, ← he2, hresF]

end

theorem le_maxId (l : List Nat) (x : Nat) (h : x ∈ l) : x ≤ maxId l := by
  induction l with
  | nil => cases h
  | cons y ys ih =>
    rcases List.mem_cons.mp h with rfl | hmem
    · exact Nat.le_max_left _ _
    · exact Nat.le_trans (ih hmem) (Nat.le_max_right _ _)

theorem freshId_not_mem (t : Tree) : freshId t ∉ t.root.ids := by
  intro hmem
  have := le_maxId t.root.ids (freshId t) hmem
  simp only [freshId] at this
  omega

/-! ## Claim theorems -/

/-- Claim C1: for every tree and every non-root node `node` with a valid
sibling position `after`, a successful `move_within` leaves the subtree
rooted at `node` identical to what it was before the call (same
descendant set, same relative order), and repositions it: when `after`
names a predecessor, `node` is now the sibling immediately following
`after` under `after`'s parent; when `after` denotes no predecessor,
`node` is now the first child of its parent. -/
theorem move_within_correct (t : Tree) (node : Nat) (after : Option Nat) (t' : Tree)
    (hwf : t.root.ids.Nodup) (h : move_within t node after = (t', none)) :
    t'.root.find node = t.root.find node ∧
    (∀ a, after = some a →
      nextSibN a t'.root = some node ∧ parentOfN node t'.root = parentOfN a t.root) ∧
    (after = none →
      ∀ p, parentOfN node t.root = some p →
        (t'.root.find p).bind (fun P => P.children.head?.map RNode.nid) = some node ∧
        parentOfN node t'.root = some p) := by
  by_cases hroot : t.root.nid = node
  · exfalso
    unfold move_within at h
    rw [if_pos hroot] at h
    simp at h
  unfold move_within at h
  rw [if_neg hroot] at h
  cases hp : parentOfN node t.root with
  | none =>
    exfalso
    rw [hp] at h
    cases hf : RNode.find node t.root with
    | none => rw [hf] at h; simp at h
    | some sub => rw [hf] at h; simp at h
  | some p =>
    rw [hp] at h
    cases hf : RNode.find node t.root with
    | none =>
      exfalso
      rw [hf] at h
      simp at h
    | some sub =>
      rw [hf] at h
      have hnid : sub.nid = node := find_nid node t.root sub hf
      have hperm := removeN_perm node t.root sub hroot hwf hf
      have hnd2 : ((removeN node t.root).ids ++ sub.ids).Nodup := hperm.nodup_iff.mp hwf
      have hdisj := (List.nodup_append.mp hnd2).2.2
      have hnode_sub : node ∈ sub.ids := hnid ▸ nid_mem_ids sub
      have hnotin : sub.nid ∉ (removeN node t.root).ids := by
        rw [hnid]
        exact fun hmem => hdisj hmem hnode_sub
      cases after with
      | none =>
        simp only [] at h
        cases hins : insFC p sub (removeN node t.root) with
        | none =>
          exfalso
          rw [hins] at h
          simp at h
        | some r2 =>
          rw [hins] at h
          simp only [Prod.mk.injEq, and_true] at h
          subst h
          refine ⟨?_, ?_, ?_⟩
          · show RNode.find node r2 = some sub
            rw [← hnid]
            exact insFC_find_sub p sub (removeN node t.root) r2 hnotin hins
          · intro a ha
            cases ha
          · intro _ q hq
            injection hq with hq'
            subst hq'
            obtain ⟨pp, ds, _, h2⟩ := insFC_find_self p sub (removeN node t.root) r2 hins
            constructor
            · show (RNode.find p r2).bind _ = _
              rw [h2]
              rw [← hnid]
              rfl
            · show parentOfN node r2 = some p
              rw [← hnid]
              exact insFC_parent p sub (removeN node t.root) r2 hnotin hins
      | some a =>
        simp only [] at h
        by_cases ha : a ∈ sub.ids
        · exfalso
          rw [if_pos ha] at h
          simp at h
        rw [if_neg ha] at h
        cases hpa : parentOfN a t.root with
        | none =>
          exfalso
          rw [hpa] at h
          simp at h
        | some pa =>
          rw [hpa] at h
          cases hins : insA a sub (removeN node t.root) with
          | none =>
            exfalso
            rw [hins] at h
            simp at h
          | some r2 =>
            rw [hins] at h
            simp only [Prod.mk.injEq, and_true] at h
            subst h
            refine ⟨?_, ?_, ?_⟩
            · show RNode.find node r2 = some sub
              rw [← hnid]
              exact insA_find_sub a sub (removeN node t.root) r2 hnotin hins
            · intro a' ha'
              injection ha' with ha''
              subst ha''
              constructor
              · show nextSibN a r2 = some node
                rw [← hnid]
                exact insA_nextSib a sub (removeN node t.root) r2 hins
              · show parentOfN node r2 = _
                rw [← hnid,
                  insA_parent a sub (removeN node t.root) r2 hnotin hins]
                exact parentOfN_remove node a t.root sub hroot hwf hf ha
            · intro hnone
              cases hnone

/-- Claim C1 witness: moving node 1 immediately after its sibling 2 in the
sample tree keeps the subtree at 1 intact and places it right after 2
under the same parent. -/
theorem move_within_correct_witness :
    sampleTree.root.ids.Nodup ∧
    (move_within sampleTree 1 (some 2)).1.root.find 1 = sampleTree.root.find 1 ∧
    nextSibN 2 (move_within sampleTree 1 (some 2)).1.root = some 1 ∧
    parentOfN 1 (move_within sampleTree 1 (some 2)).1.root = parentOfN 2 sampleTree.root :=
  have hwf : sampleTree.root.ids.Nodup := by decide
  have h : move_within sampleTree 1 (some 2) = ((move_within sampleTree 1 (some 2)).1, none) := rfl
  have main := move_within_correct sampleTree 1 (some 2)
    (move_within sampleTree 1 (some 2)).1 hwf h
  ⟨hwf, main.1, (main.2.1 2 rfl).1, (main.2.1 2 rfl).2⟩

theorem move_to_new_parent_shape (t : Tree) (node newParent : Nat) (after : Option Nat) :
    (∃ r2, move_to_new_parent t node newParent after = ({ t with root := r2 }, none)) ∨
    move_to_new_parent t node newParent after = (t, some .structuralViolation) := by
  unfold move_to_new_parent
  by_cases hroot : t.root.nid = node
  · rw [if_pos hroot]
    exact Or.inr rfl
  rw [if_neg hroot]
  cases hp : parentOfN node t.root with
  | none =>
    cases hf : RNode.find node t.root with
    | none => exact Or.inr (by simp)
    | some sub => exact Or.inr (by simp)
  | some p =>
    cases hf : RNode.find node t.root with
    | none => exact Or.inr (by simp)
    | some sub =>
      by_cases hm : newParent ∈ sub.ids
      · exact Or.inr (by simp [hm])
      cases hfp : RNode.find newParent t.root with
      | none => exact Or.inr (by simp [hm])
      | some pnode =>
        by_cases hch : canHaveChildren pnode.payload.ntype = false
        · exact Or.inr (by simp [hm, hch])
        cases after with
        | none =>
          cases hins : insFC newParent sub (removeN node t.root) with
          | none => exact Or.inr (by simp [hm, hch, hins])
          | some r2 => exact Or.inl ⟨r2, by simp [hm, hch, hins]⟩
        | some a =>
          by_cases ha : a ∈ sub.ids
          · exact Or.inr (by simp [hm, hch, ha])
          cases hins : insA a sub (removeN node t.root) with
          | none => exact Or.inr (by simp [hm, hch, ha, hins])
          | some r2 => exact Or.inl ⟨r2, by simp [hm, hch, ha, hins]⟩

/-- Claim C4: `move_to_new_parent` with `new_parent` equal to `node` itself
or to one of `node`'s descendants fails with a `structuralViolation` error
and returns the tree byte-for-byte unchanged; and in general the
operation is atomic — whenever it reports an error, the returned tree is
exactly the input tree, with no partial relink visible. -/
theorem move_to_new_parent_atomic (t : Tree) (node newParent : Nat) (after : Option Nat) :
    (∀ sub, t.root.find node = some sub → newParent ∈ sub.ids →
      move_to_new_parent t node newParent after = (t, some .structuralViolation)) ∧
    (∀ e, (move_to_new_parent t node newParent after).2 = some e →
      (move_to_new_parent t node newParent after).1 = t) := by
  constructor
  · intro sub hf hmem
    unfold move_to_new_parent
    by_cases hroot : t.root.nid = node
    · rw [if_pos hroot]
    · rw [if_neg hroot, hf]
      cases hp : parentOfN node t.root with
      | none => simp
      | some p => simp [hmem]
  · intro e he
    rcases move_to_new_parent_shape t node newParent after with ⟨r2, hsh⟩ | hsh
    · rw [hsh] at he
      cases he
    · rw [hsh]

/-- Claim C4 witness: in the sample tree, node 4 is a descendant of node 3,
so moving 3 under 4 fails with `structuralViolation` and returns the tree
unchanged. -/
theorem move_to_new_parent_atomic_witness :
    sampleTree.root.find 3 =
      some (.mk 3 ⟨.mmap, none, none⟩ [.mk 4 ⟨.vval, none, none⟩ []]) ∧
    4 ∈ (RNode.mk 3 ⟨.mmap, none, none⟩ [.mk 4 ⟨.vval, none, none⟩ []]).ids ∧
    move_to_new_parent sampleTree 3 4 none = (sampleTree, some .structuralViolation) :=
  ⟨rfl, by decide,
   (move_to_new_parent_atomic sampleTree 3 4 none).1
     (.mk 3 ⟨.mmap, none, none⟩ [.mk 4 ⟨.vval, none, none⟩ []]) rfl (by decide)⟩

/-- Claim C3: `move_from_tree` is a copy, not a remove: it returns the
source tree unchanged, and on success the returned index in the
destination dereferences to a subtree whose resolved content (node types,
key and value text, child order) is textually identical to the source
subtree, with every text range duplicated into — and in bounds of — the
destination tree's arena, which only grew. -/
theorem move_from_tree_copies (dst src : Tree) (node newParent : Nat) (after : Option Nat)
    (A B : Tree) (res : Except RErr Nat)
    (h : move_from_tree dst src node newParent after = (A, B, res)) :
    B = src ∧
    (∀ idx, res = .ok idx →
      ∃ sub sub2 ext, src.root.find node = some sub ∧
        A.root.find idx = some sub2 ∧
        resolveN A.arena sub2 = resolveN src.arena sub ∧
        rangesOkN A.arena sub2 = true ∧
        A.arena = dst.arena ++ ext) := by
  have hdead : ∀ (C : Nat → Prop),
      ((dst, src, Except.error RErr.structuralViolation) : Tree × Tree × Except RErr Nat) = (A, B, res) →
      B = src ∧ (∀ idx, res = .ok idx → C idx) := by
    intro C h'
    simp only [Prod.mk.injEq] at h'
    refine ⟨h'.2.1.symm, ?_⟩
    intro idx hik
    rw [← h'.2.2] at hik
    cases hik
  unfold move_from_tree at h
  by_cases hroot : src.root.nid = node
  · rw [if_pos hroot] at h
    exact hdead _ h
  rw [if_neg hroot] at h
  cases hf : RNode.find node src.root with
  | none =>
    rw [hf] at h
    exact hdead _ h
  | some sub =>
    rw [hf] at h
    try simp only [] at h
    cases hfp : RNode.find newParent dst.root with
    | none =>
      rw [hfp] at h
      exact hdead _ h
    | some pnode =>
      rw [hfp] at h
      try simp only [] at h
      by_cases hch : canHaveChildren pnode.payload.ntype = false
      · rw [if_pos hch] at h
        exact hdead _ h
      rw [if_neg hch] at h
      try simp only [] at h
      obtain ⟨⟨ext, hext⟩, hnid, hok, hresv⟩ :=
        copyN_spec src.arena dst.arena (freshId dst) sub
      have hnotin : (copyN src.arena dst.arena (freshId dst) sub).1.nid ∉ dst.root.ids := by
        rw [hnid]
        exact freshId_not_mem dst
      cases after with
      | none =>
        try simp only [] at h
        cases hins : insFC newParent (copyN src.arena dst.arena (freshId dst) sub).1 dst.root with
        | none =>
          rw [hins] at h
          exact hdead _ h
        | some r2 =>
          rw [hins] at h
          simp only [Prod.mk.injEq] at h
          obtain ⟨hA, hB, hres⟩ := h
          refine ⟨hB.symm, ?_⟩
          intro idx hik
          rw [← hres] at hik
          injection hik with hidx
          subst hidx
          refine ⟨sub, (copyN src.arena dst.arena (freshId dst) sub).1, ext, rfl, ?_, ?_, ?_, ?_⟩
          · rw [← hA]
            show RNode.find (freshId dst) r2 = _
            have hfind := insFC_find_sub newParent _ dst.root r2 hnotin hins
            rw [hnid] at hfind
            exact hfind
          · rw [← hA]
            exact hresv
          · rw [← hA]
            exact hok
          · rw [← hA]
            exact hext
      | some a =>
        try simp only [] at h
        cases hins : insA a (copyN src.arena dst.arena (freshId dst) sub).1 dst.root with
        | none =>
          rw [hins] at h
          exact hdead _ h
        | some r2 =>
          rw [hins] at h
          simp only [Prod.mk.injEq] at h
          obtain ⟨hA, hB, hres⟩ := h
          refine ⟨hB.symm, ?_⟩
          intro idx hik
          rw [← hres] at hik
          injection hik with hidx
          subst hidx
          refine ⟨sub, (copyN src.arena dst.arena (freshId dst) sub).1, ext, rfl, ?_, ?_, ?_, ?_⟩
          · rw [← hA]
            show RNode.find (freshId dst) r2 = _
            have hfind := insA_find_sub a _ dst.root r2 hnotin hins
            rw [hnid] at hfind
            exact hfind
          · rw [← hA]
            exact hresv
          · rw [← hA]
            exact hok
          · rw [← hA]
            exact hext

/-- Claim C3 witness: copying node 1 of the sample source tree into the
sample destination tree (after the destination's node 1, under its root)
leaves the source untouched and yields index 2 whose resolved content
equals the source subtree, with all text in bounds of the grown
destination arena. -/
theorem move_from_tree_copies_witness :
    (move_from_tree sampleDst sampleSrc 1 0 (some 1)).2.1 = sampleSrc ∧
    (∃ sub sub2 ext, sampleSrc.root.find 1 = some sub ∧
      (move_from_tree sampleDst sampleSrc 1 0 (some 1)).1.root.find 2 = some sub2 ∧
      resolveN (move_from_tree sampleDst sampleSrc 1 0 (some 1)).1.arena sub2 =
        resolveN sampleSrc.arena sub ∧
      rangesOkN (move_from_tree sampleDst sampleSrc 1 0 (some 1)).1.arena sub2 = true ∧
      (move_from_tree sampleDst sampleSrc 1 0 (some 1)).1.arena = sampleDst.arena ++ ext) :=
  have main := move_from_tree_copies sampleDst sampleSrc 1 0 (some 1)
    (move_from_tree sampleDst sampleSrc 1 0 (some 1)).1
    (move_from_tree sampleDst sampleSrc 1 0 (some 1)).2.1
    (move_from_tree sampleDst sampleSrc 1 0 (some 1)).2.2 rfl
  ⟨main.1, main.2 2 rfl⟩

/-- Claim C9: `clone_tree` returns a tree that is structurally and
textually equal to its input — same node ids, same node types, same key
and value strings, same child order — and fully independent of it: every
text range of the clone lies inside the clone's own freshly built arena,
so no reference into the source tree's storage remains. -/
theorem clone_tree_correct (t : Tree) :
    resolveN (clone_tree t).arena (clone_tree t).root = resolveN t.arena t.root ∧
    (clone_tree t).root.ids = t.root.ids ∧
    rangesOkN (clone_tree t).arena (clone_tree t).root = true := by
  obtain ⟨_, hids, hok, hres⟩ := cloneN_spec t.arena [] t.root
  exact ⟨hres, hids, hok⟩

/-- Claim C6: for every tree, passing the tree's root (the node with no
parent) as the `node` argument of any of the three relocation operations
fails with a `structuralViolation` error and leaves the trees unchanged;
in particular `move_within t root x` fails for every `x`. -/
theorem root_relocation_fails (t dst src : Tree) (after : Option Nat) (np : Nat) :
    move_within t t.root.nid after = (t, some .structuralViolation) ∧
    move_to_new_parent t t.root.nid np after = (t, some .structuralViolation) ∧
    move_from_tree dst src src.root.nid np after = (dst, src, .error .structuralViolation) := by
  refine ⟨?_, ?_, ?_⟩ <;> simp [move_within, move_to_new_parent, move_from_tree]

/-- Claim C7, counterexample: `move_node` — a public relocation entry
point — does not trigger the one-time ErrorChannel installation: run with
the hook uninstalled, it completes its work and leaves the hook
uninstalled. -/
theorem move_node_skips_init :
    (move_node ⟨false, 0⟩ sampleTree 1 (some 2)).1 = ⟨false, 0⟩ ∧
    ((⟨false, 0⟩ : ProcState)).installed = false := by
  exact ⟨rfl, rfl⟩

/-- Claim C7, amended: only the tree-construction and parse entry points
(`new_tree`, `clone_tree`, `parse`, `parse_in_place`) trigger the one-time
ErrorChannel installation before performing their work; the node-type
query, the three relocation operations, and emission do not call
`init_ryml_once` and leave the process state untouched. -/
theorem entry_point_init_coverage (s : ProcState) (pimpl : List Char → Tree)
    (t dst src : Tree) (text : List Char) (node np cap : Nat) (after : Option Nat)
    (json : Bool) :
    (new_tree s).1.installed = true ∧
    (shim_clone_tree s t).1.installed = true ∧
    (shim_parse pimpl s text).1.installed = true ∧
    (shim_parse_in_place pimpl s text).1.installed = true ∧
    (tree_node_type s t node).1 = s ∧
    (move_node s t node after).1 = s ∧
    (move_node_to_new_parent s t node np after).1 = s ∧
    (move_node_from_tree s dst src node np after).1 = s ∧
    (emit_to_rwriter s t json cap).1 = s :=
  ⟨init_ryml_once_installed s, init_ryml_once_installed s, init_ryml_once_installed s,
   init_ryml_once_installed s, rfl, rfl, rfl, rfl, rfl⟩

/-- Claim C8: ErrorChannel installation is idempotent — however many times
initialization is requested, the hook is installed exactly once — and
after installation every fatal condition is raised as a structured,
catchable runtime error carrying the message and the source location
(name and line) instead of aborting the process. -/
theorem init_once_idempotent_and_translates (s : ProcState) (n : Nat)
    (msg locName : String) (locLine : Nat) :
    init_ryml_once (init_ryml_once s) = init_ryml_once s ∧
    (init_ryml_once^[n + 1] ⟨false, 0⟩).installCount = 1 ∧
    raiseFatal (init_ryml_once s) msg locName locLine =
      .raised (.runtimeError (msg ++ "\n    at " ++ locName ++ ":" ++ toString locLine)) := by
  refine ⟨?_, ?_, ?_⟩
  · by_cases h : s.installed <;> simp [init_ryml_once, h]
  · rw [init_ryml_once_iterate]
  · simp [raiseFatal, init_ryml_once_installed s, rymlErrorHook]

/-- Claim C10: for every fixed string-literal fragment, the `WriterRust`
array overload of `_do_write` forwards to the Rust writer a slice whose
length is exactly the array extent `N` — the literal's characters
including the trailing NUL — so each such fragment contributes exactly
`N` bytes to the sink. -/
theorem do_write_array_forwards_full_extent (w : RWriterState) (s : String) :
    (do_write_array w (literalArray s)).calls = w.calls ++ [.writeSlice (literalArray s)] ∧
    (literalArray s).length = s.length + 1 ∧
    sinkBytes (do_write_array w (literalArray s)) = sinkBytes w + (s.length + 1) := by
  have hlen : (literalArray s).length = s.length + 1 := by
    rw [literalArray, List.length_append]
    rfl
  refine ⟨rfl, hlen, ?_⟩
  rw [sinkBytes, sinkBytes, do_write_array]
  simp only [List.map_append, List.sum_append, List.map_cons, List.map_nil, callBytes]
  rw [hlen]
  simp

/-- Claim C2: for every tree, sink capacity and both emission modes, the
byte length accumulated by the emitter's measuring pass equals the
`total_bytes_written` value `emit` returns after the fill pass. -/
theorem measured_equals_written (t : Tree) (json : Bool) (cap n : Nat)
    (h : (emit t json cap).1 = .ok n) : measuredLen t json = n := by
  unfold emit at h
  simp only at h
  rcases hf : (fillPass cap (fragsN t.arena json t.root) 0 []).1 with e | pb
  · rw [hf] at h
    simp at h
  · rw [hf] at h
    simp at h
    rcases pb with ⟨p, b⟩
    have := fillPass_ok_fst cap (fragsN t.arena json t.root) 0 [] p b hf
    simp only [measuredLen, measurePass_fst]
    omega

/-- Claim C2 witness: on the sample tree with a large enough sink, `emit`
returns 6 bytes written and the measuring pass computed 6. -/
theorem measured_equals_written_witness :
    (emit sampleTree true 100).1 = .ok 6 ∧ measuredLen sampleTree true = 6 :=
  ⟨rfl, measured_equals_written sampleTree true 100 6 rfl⟩

/-- Claim C5: in the trace of `request_buffer` calls made during one
successful emit, the calls split into a measuring phase (all with
`error_on_excess = false`) followed by a fill phase (all with
`error_on_excess = true`), and the two phases issue identical request
sequences. -/
theorem two_phase_trace (t : Tree) (json : Bool) (cap n : Nat)
    (h : (emit t json cap).1 = .ok n) :
    ∃ ms fs, (emit t json cap).2 = ms ++ fs ∧
      (∀ x ∈ ms, x.2 = false) ∧ (∀ x ∈ fs, x.2 = true) ∧
      ms.map Prod.fst = fs.map Prod.fst := by
  have hms := measurePass_snd (fragsN t.arena json t.root) 0
  unfold emit at h ⊢
  simp only at h ⊢
  rcases hf : (fillPass cap (fragsN t.arena json t.root) 0 []).1 with e | pb
  · rw [hf] at h
    simp at h
  · have hfs := fillPass_ok_snd cap (fragsN t.arena json t.root) 0 [] pb hf
    refine ⟨(measurePass (fragsN t.arena json t.root) 0).2,
            (fillPass cap (fragsN t.arena json t.root) 0 []).2, rfl, ?_, ?_, ?_⟩
    · intro x hx
      rw [hms] at hx
      rcases List.mem_map.mp hx with ⟨f, _, rfl⟩
      rfl
    · intro x hx
      rw [hfs] at hx
      rcases List.mem_map.mp hx with ⟨f, _, rfl⟩
      rfl
    · rw [hms, hfs]
      simp [List.map_map, Function.comp]

/-- Claim C5 witness: a successful emit of the sample tree whose trace
decomposes into the measuring phase then the fill phase. -/
theorem two_phase_trace_witness :
    (emit sampleTree true 100).1 = .ok 6 ∧
    (∃ ms fs, (emit sampleTree true 100).2 = ms ++ fs ∧
      (∀ x ∈ ms, x.2 = false) ∧ (∀ x ∈ fs, x.2 = true) ∧
      ms.map Prod.fst = fs.map Prod.fst) :=
  ⟨rfl, two_phase_trace sampleTree true 100 6 rfl⟩

end Shimmy
